import Mathlib

/-!
# Verification of the sheet-happens extraction core

Shallow embedding of `src/sheet_happens.py` (nuno-andre/sheet-happens,
v0.0.5): the column/reference codec, shared-string resolution, eager and
lazy worksheet extraction, record projection, and text sanitization.

Python data is modelled as follows: Python `str` values are `String` or
`List Char`, Python `int` is `Int`, `None`-able values are `Option`,
and code that can raise an exception returns `Except Err`.  The `Err`
constructors name the concrete Python exception classes raised by the
code; the spec's abstract error taxonomy maps onto them where the
behaviour coincides (`MissingEntry` = `KeyError`, `InvalidSharedStringIndex`
= `IndexError`, `EmptyTable` = `StopIteration`).
-/

namespace SheetHappens

/-- The Python exceptions the extraction core can raise. -/
inductive Err where
  | keyError (name : String)
  | valueError
  | indexError
  | stopIteration
deriving DecidableEq, Repr

instance {ε α : Type} [DecidableEq ε] [DecidableEq α] : DecidableEq (Except ε α) := fun x y =>
  match x, y with
  | .ok a, .ok b => decidable_of_iff (a = b) (by simp)
  | .error a, .error b => decidable_of_iff (a = b) (by simp)
  | .ok _, .error _ => isFalse (by simp)
  | .error _, .ok _ => isFalse (by simp)

/-- `string.ascii_uppercase` from the Python standard library. -/
def ascii_uppercase : List Char :=
  ['A', 'B', 'C', 'D', 'E', 'F', 'G', 'H', 'I', 'J', 'K', 'L', 'M',
   'N', 'O', 'P', 'Q', 'R', 'S', 'T', 'U', 'V', 'W', 'X', 'Y', 'Z']

/-- `string.digits` from the Python standard library. -/
def py_digits : List Char :=
  ['0', '1', '2', '3', '4', '5', '6', '7', '8', '9']

/-- Python `s.find(c)`: index of the first occurrence of `c`, `-1` if absent. -/
def strFind (s : List Char) (c : Char) : Int :=
  match s.findIdx? (fun x => x == c) with
  | some i => (i : Int)
  | none => -1

/-- Embeds `Sheet.col` (src lines 110-116):
`x = reversed([ascii_uppercase.find(l) for l in col])`
then `sum(26 * i + n for i, n in enumerate(x))`.
(The `self.cols` memo cache is semantically transparent and omitted.) -/
def Sheet.col (col : String) : Int :=
  let x := (col.data.map (fun l => strFind ascii_uppercase l)).reverse
  ((x.enum.map (fun p => 26 * (p.1 : Int) + p.2)).sum)

/-- The value the spec assigns to a column-letter string: bijective
base-26 with `A = 1, ..., Z = 26` per letter, rightmost letter weighted
`26 ^ 0`, minus one for the 0-based index (Excel's `A, B, ..., Z, AA, ...`
ordering).  Defined from the spec's words for comparison with
`Sheet.col`. -/
def excelColVal (s : String) : Int :=
  (s.data.foldl (fun a c => 26 * a + ((c.toNat : Int) - 64)) 0) - 1

/-- Decimal value of a list of digit characters. -/
def decimalVal (l : List Char) : Nat :=
  l.foldl (fun a c => 10 * a + (c.toNat - 48)) 0

/-- Python `int(s)` restricted to the inputs this program produces: an
optional sign followed by decimal digits; anything else (in particular
the empty string) raises `ValueError`, modelled as `none`.  (Python also
accepts surrounding whitespace and underscores, which never occur here.) -/
def pyToInt : List Char → Option Int
  | [] => none
  | '-' :: rest =>
    if rest ≠ [] ∧ rest.all Char.isDigit then some (-(decimalVal rest : Int)) else none
  | '+' :: rest =>
    if rest ≠ [] ∧ rest.all Char.isDigit then some ((decimalVal rest : Int)) else none
  | s =>
    if s.all Char.isDigit then some ((decimalVal s : Int)) else none

/-- Embeds `Sheet.coords` (src lines 118-124):
`col = ''.join(x for x in cell if x not in digits)`,
`row = int(''.join(x for x in cell if x not in col)) - 1`,
`col = self.cols.get(col, self.col(col))` (the cache is transparent).
The only possible exception is `ValueError` from `int('')`. -/
def Sheet.coords (cell : String) : Except Err (Int × Int) :=
  let colStr : List Char := cell.data.filter (fun x => !(py_digits.contains x))
  let rowChars : List Char := cell.data.filter (fun x => !(colStr.contains x))
  match pyToInt rowChars with
  | none => .error .valueError
  | some n => .ok (Sheet.col (String.mk colStr), n - 1)

/-- The line-boundary characters of Python `str.splitlines`
(`\r\n` is additionally treated as a single boundary). -/
def pyLineBreaks : List Char :=
  ['\n', '\r', '\x0b', '\x0c', '\x1c', '\x1d', '\x1e', '\x85', ' ', ' ']

def pyIsLineBreak (c : Char) : Bool := pyLineBreaks.contains c

/-- The characters Python `str.strip()` removes (the `str.isspace`
character class). -/
def pyWhitespace : List Char :=
  pyLineBreaks ++
  ['\t', ' ', '\x1f', '\xa0', ' ', ' ', ' ', ' ',
   ' ', ' ', ' ', ' ', ' ', ' ', ' ',
   ' ', ' ', ' ', '　']

def pyIsSpace (c : Char) : Bool := pyWhitespace.contains c

/-- Python `str.strip()`: drop leading and trailing whitespace. -/
def pyStrip (s : List Char) : List Char :=
  ((s.dropWhile pyIsSpace).reverse.dropWhile pyIsSpace).reverse

/-- Prepend a character to the first segment of a segment list. -/
def consHead (c : Char) : List (List Char) → List (List Char)
  | [] => [[c]]
  | l :: ls => (c :: l) :: ls

/-- Python `str.splitlines()`: split at line boundaries (consuming
them), with `\r\n` as one boundary; no trailing empty segment for a
string that ends in a boundary, and `''.splitlines() == []`. -/
def pySplitlines : List Char → List (List Char)
  | [] => []
  | '\r' :: '\n' :: rest => [] :: pySplitlines rest
  | c :: rest =>
    if pyIsLineBreak c then [] :: pySplitlines rest else consHead c (pySplitlines rest)

/-- Python `sep.join(list)`. -/
def pyJoin (sep : List Char) : List (List Char) → List Char
  | [] => []
  | [l] => l
  | l :: ls => l ++ sep ++ pyJoin sep ls

/-- Embeds the sanitization step of `Sheet.value` (src line 152) on the
character list: `' '.join(filter(None, value.strip().splitlines()))`
(`filter(None, ...)` discards the empty segments). -/
def pySanitizeCore (u : List Char) : List Char :=
  pyJoin [' '] ((pySplitlines (pyStrip u)).filter (fun l => !l.isEmpty))

/-- The sanitization step of `Sheet.value` (src line 152) on strings. -/
def pySanitize (s : String) : String :=
  String.mk (pySanitizeCore s.data)

/-- A worksheet `<c>` element: its `r` (address) attribute, optional
`t` (type) attribute, and the text of its `<v>` child (`none` when the
child is absent, the `AttributeError` path of `Sheet.value`). -/
structure CellNode where
  r : String
  t : Option String
  v : Option String
deriving DecidableEq, Repr

/-- Python list subscript `l[i]`: negative indices count from the end;
an index out of range raises `IndexError`. -/
def pyIndex (l : List α) (i : Int) : Except Err α :=
  let j : Int := if i < 0 then i + l.length else i
  if h : 0 ≤ j ∧ j < (l.length : Int) then
    .ok (l.get ⟨j.toNat, by omega⟩)
  else
    .error .indexError

/-- Embeds the `try` block of `Sheet.value` (src lines 142-149): take
the `<v>` child's text (absent child ⇒ `AttributeError` ⇒ `None`); for
a cell typed `s`, parse it as an integer and subscript the workbook's
shared-string list (`self.book.shared[int(v)]`); otherwise return the
raw text.  Shared-string entries are themselves `Option String`: a
`<t/>` element with no text is `None` in the table. -/
def resolveValue (shared : List (Option String)) (node : CellNode) : Except Err (Option String) :=
  match node.v with
  | none => .ok none
  | some v =>
    if node.t = some "s" then
      match pyToInt v.data with
      | none => .error .valueError
      | some i => pyIndex shared i
    else
      .ok (some v)

/-- Embeds `Sheet.value` (src lines 139-154): resolve the raw value,
then, when the workbook's `sanitize` flag is set and the value is
truthy (not `None`, not the empty string), apply the sanitization. -/
def Sheet.value (san : Bool) (shared : List (Option String)) (node : CellNode) :
    Except Err (Option String) :=
  (resolveValue shared node).map (fun value =>
    match value with
    | some s => if san && !(s == "") then some (pySanitize s) else some s
    | none => none)

/-- A worksheet cell with its address already decoded by `Sheet.cell`
and its value already resolved by `Sheet.value` (both are deterministic
per node and are invoked identically, node by node in document order,
by the eager and the lazy extraction loops). -/
structure Cell where
  col : Nat
  row : Nat
  val : Option String
deriving DecidableEq, Repr

/-- One cell write into a row buffer: `row[col] = value`. -/
def rowUpd (buf : List (Option String)) (c : Cell) : List (Option String) :=
  buf.set c.col c.val

/-- All of a row's cell writes applied to a fresh `None`-filled buffer. -/
def fillRow (width : Nat) (g : List Cell) : List (Option String) :=
  g.foldl rowUpd (List.replicate width none)

/-- The loop of `Sheet.parse` (src lines 176-181): write each cell into
the current buffer; after a write at column `lastcol = width - 1`
(Python integer arithmetic, hence the `Int` comparison) yield the
buffer and start a fresh one. -/
def parseGo (width : Nat) (buf : List (Option String)) : List Cell → List (List (Option String))
  | [] => []
  | c :: cs =>
    let buf2 := rowUpd buf c
    if (c.col : Int) = (width : Int) - 1 then
      buf2 :: parseGo width (List.replicate width none) cs
    else
      parseGo width buf2 cs

/-- Embeds `Sheet.parse` (src lines 170-181), the lazy row generator,
as the list of all rows it yields. -/
def Sheet.parse (width : Nat) (cells : List Cell) : List (List (Option String)) :=
  parseGo width (List.replicate width none) cells

/-- One cell write into the dense grid: `parsed[row][col] = value`. -/
def gridUpd (grid : List (List (Option String))) (c : Cell) : List (List (Option String)) :=
  grid.set c.row (rowUpd (grid.getD c.row []) c)

/-- Embeds `Sheet.parsed` (src lines 156-168): preallocate a
`height × width` grid of `None` and place every cell at
`[row][col]` in document order. -/
def Sheet.parsed (width height : Nat) (cells : List Cell) : List (List (Option String)) :=
  cells.foldl gridUpd (List.replicate height (List.replicate width none))

/-- Python `dict` insertion: an existing key keeps its position and is
overwritten, a new key is appended. -/
def pyDictInsert (d : List (Option String × Option String)) (k v : Option String) :
    List (Option String × Option String) :=
  if d.any (fun p => p.1 == k) then
    d.map (fun p => if p.1 == k then (p.1, v) else p)
  else
    d ++ [(k, v)]

/-- Python `dict(pairs)` as an insertion-ordered association list. -/
def pyDict (ps : List (Option String × Option String)) : List (Option String × Option String) :=
  ps.foldl (fun d p => pyDictInsert d p.1 p.2) []

/-- Embeds `Sheet.to_dict` (src lines 183-188): pull the first row of
the lazy generator as the header (`next` raises `StopIteration` when
the generator is empty), then zip every later row against it.
`zip` truncates to the shorter of the two. -/
def Sheet.to_dict (width : Nat) (cells : List Cell) :
    Except Err (List (List (Option String × Option String))) :=
  match Sheet.parse width cells with
  | [] => .error .stopIteration
  | header :: rows => .ok (rows.map (fun row => pyDict (header.zip row)))

/-- Embeds `Sheet.dict` (src lines 190-196): if the eager table was
already materialized (the `_parsed` cache attribute exists, argument
`hasParsed`), unpack it as `header, *rows` (a `ValueError` when it is
empty) and zip; otherwise consume the lazy generator via `to_dict`. -/
def Sheet.dict (width height : Nat) (cells : List Cell) (hasParsed : Bool) :
    Except Err (List (List (Option String × Option String))) :=
  if hasParsed then
    match Sheet.parsed width height cells with
    | [] => .error .valueError
    | header :: rows => .ok (rows.map (fun row => pyDict (header.zip row)))
  else
    Sheet.to_dict width cells

/-- A workbook package, abstracted from `zipfile.ZipFile`: the list of
entry names, and the `<t>`-node texts of `xl/sharedStrings.xml`
(meaningful only when that entry is present). -/
structure Zipfile where
  names : List String
  sstTexts : List (Option String)

/-- `ZipFile.open` membership test: opening a missing entry raises
`KeyError`. -/
def zipHas (z : Zipfile) (name : String) : Bool := z.names.contains name

/-- Embeds `Book.shared` (src lines 66-72): open `xl/sharedStrings.xml`
— a `KeyError` when the package has no such entry, there is no
fallback — and return its `<t>`-node texts in document order. -/
def Book.shared (z : Zipfile) : Except Err (List (Option String)) :=
  if zipHas z "xl/sharedStrings.xml" then .ok z.sstTexts
  else .error (.keyError "xl/sharedStrings.xml")

/-- Embeds `Book.sheets` (src lines 74-91): open `xl/workbook.xml`
(`KeyError` when absent), collect the worksheet entries (names starting
with `xl/worksheets/sheet`), and unconditionally force `self.shared`
(src line 90) before returning.  Sheet construction is abstracted to
the entry names; the manifest's name map only affects naming. -/
def Book.sheets (z : Zipfile) : Except Err (List String) := do
  let _ ← (if zipHas z "xl/workbook.xml" then Except.ok () else .error (.keyError "xl/workbook.xml"))
  let sheetPaths := z.names.filter (fun p => "xl/worksheets/sheet".data.isPrefixOf p.data)
  let _ ← Book.shared z
  return sheetPaths

/-- Python `s.split(sep)` for a one-character separator. -/
def splitOnChar (sep : Char) : List Char → List (List Char)
  | [] => [[]]
  | c :: rest =>
    if c = sep then [] :: splitOnChar sep rest else consHead c (splitOnChar sep rest)

/-- Embeds `Sheet.shape` (src lines 131-137): split the worksheet's
`dimension` `ref` attribute on `:` into exactly two corners (else the
tuple unpacking raises `ValueError`), decode the south-east corner and
add one to each coordinate. -/
def Sheet.shape (ref : String) : Except Err (Int × Int) :=
  match splitOnChar ':' ref.data with
  | [_nw, se] => (Sheet.coords (String.mk se)).map (fun cr => (cr.1 + 1, cr.2 + 1))
  | _ => .error .valueError

/-- Decode one node's address and resolve its value, as both extraction
loops do per node (src lines 164-165 and 177-178).  Coordinates of
valid references (letters, then digits ≥ 1) are nonnegative, so the
`Int.toNat` conversions are exact; Python's wrap-around for a negative
row (a `...0` reference) is outside this model. -/
def resolveCell (shared : List (Option String)) (san : Bool) (node : CellNode) :
    Except Err Cell := do
  let cr ← Sheet.coords node.r
  let v ← Sheet.value san shared node
  return ⟨cr.1.toNat, cr.2.toNat, v⟩

/-- The eager pipeline of one worksheet: shape from the `dimension`
attribute, then `Sheet.parsed` over the document-ordered cell nodes. -/
def Sheet.parsedSheet (dim : String) (shared : List (Option String)) (san : Bool)
    (nodes : List CellNode) : Except Err (List (List (Option String))) := do
  let wh ← Sheet.shape dim
  let cells ← nodes.mapM (resolveCell shared san)
  return Sheet.parsed wh.1.toNat wh.2.toNat cells

/-- The record pipeline of one worksheet: shape, then `Sheet.to_dict`
over the document-ordered cell nodes. -/
def Sheet.to_dictSheet (dim : String) (shared : List (Option String)) (san : Bool)
    (nodes : List CellNode) : Except Err (List (List (Option String × Option String))) := do
  let wh ← Sheet.shape dim
  let cells ← nodes.mapM (resolveCell shared san)
  Sheet.to_dict wh.1.toNat cells

/-- The C7 worksheet: `A1`→shared 0, `B1`→shared 1, `A2`→inline
`"Alice"`, `B2`→inline `"30"`, in document order. -/
def nodesC7 : List CellNode :=
  [⟨"A1", some "s", some "0"⟩, ⟨"B1", some "s", some "1"⟩,
   ⟨"A2", none, some "Alice"⟩, ⟨"B2", none, some "30"⟩]

/-- The C7 shared-string table. -/
def sharedC7 : List (Option String) := [some "Name", some "Age"]

/-- The C2 counterexample cell list: the two cells of row 0 in
reversed document order (`B1` before `A1`). -/
def cellsC2 : List Cell := [⟨1, 0, some "b"⟩, ⟨0, 0, some "a"⟩]

/-- The C6 counterexample cell list: `A1` (a row-0 cell strictly before
the last column), then `B2` (a row-1 cell at the last column). -/
def cellsC6 : List Cell := [⟨0, 0, some "a"⟩, ⟨1, 1, some "b"⟩]

/-- The C6 witness cell lists: one flushed row, then a trailing cell
strictly before the last column. -/
def cellsC6w : List Cell := [⟨0, 0, some "h"⟩, ⟨1, 0, some "i"⟩]

def cellsC6w2 : List Cell := [⟨0, 1, some "j"⟩]

/-- The C10 sheet: a 2×2 sheet whose second row has no cell in the
last column. -/
def cellsC10 : List Cell := [⟨0, 0, some "h1"⟩, ⟨1, 0, some "h2"⟩, ⟨0, 1, some "x"⟩]

/-- The C3 witness package: a workbook manifest and one worksheet, but
no `xl/sharedStrings.xml` entry. -/
def zipC3 : Zipfile := ⟨["xl/workbook.xml", "xl/worksheets/sheet1.xml"], []⟩

/-- The C2 witness sheet, as per-row cell groups: a 2×2 sheet in
row-major document order in which every row ends with a cell in the
last column. -/
def gC2w : Nat → List Cell := fun r =>
  if r = 0 then [⟨0, 0, some "a"⟩, ⟨1, 0, some "b"⟩] else [⟨1, 1, some "c"⟩]

/-- C1: the column decode is not a bijective base-26 decode.  The code
sums `26 * i + n_i` over reversed letter positions (linear weights
instead of powers of 26): it maps `"BA"` to `27` — colliding with
`"AB"`, which also maps to `27` — whereas the bijective base-26 /
Excel value of `"BA"` is `52`.  Decoding the canonical encoding of
column index 52 therefore returns 27, not 52. -/
theorem C1_col_not_base26 :
    excelColVal "BA" = 52 ∧ Sheet.col "BA" = 27 ∧
    Sheet.col "AB" = 27 ∧ excelColVal "AB" = 27 := by
  decide

/-- C4: decoding the malformed reference `"12A"` does not raise: the
code filters the non-digit characters into the column part and the
digit characters into the row part, so `"12A"` is read exactly like
`"A12"` and yields `(0, 11)`.  A reference with no letters (`"12"`)
also succeeds (the empty letter string decodes to column 0), and a
reference with no digits is the only failing shape — with a
`ValueError` from `int('')`; no `MalformedReference` error exists in
the code. -/
theorem C4_coords_no_validation :
    Sheet.coords "12A" = .ok (0, 11) ∧
    Sheet.coords "12" = .ok (0, 11) ∧
    Sheet.coords "ABC" = .error .valueError := by
  decide

/-- C5 counterexample: the index `-1` is out of range of the two-entry
shared-string table (its valid indices are `0` and `1`), yet resolution
returns a value — the last entry — instead of raising: Python list
subscription wraps negative indices around. -/
theorem C5_counterexample :
    ¬ (0 ≤ (-1 : Int) ∧ (-1 : Int) < (([some "A", some "B"] : List (Option String)).length : Int)) ∧
    resolveValue [some "A", some "B"] ⟨"A1", some "s", some "-1"⟩ = .ok (some "B") := by
  decide

/-- C5 amended: for a cell typed as a shared-string reference whose
value text parses to the integer `i`: if `0 ≤ i < len` resolution
returns exactly the `i`-th entry of the table; if `i ≥ len` or
`i < -len` it raises `IndexError` (the spec's
`InvalidSharedStringIndex`); but a negative `i` with `-len ≤ i < 0`
returns the `(len + i)`-th entry by Python's negative indexing rather
than raising. -/
theorem C5_shared_resolution (shared : List (Option String)) (ref v : String) (i : Int)
    (hv : pyToInt v.data = some i) :
    (∀ h : 0 ≤ i ∧ i < (shared.length : Int),
        resolveValue shared ⟨ref, some "s", some v⟩ = .ok (shared.get ⟨i.toNat, by omega⟩))
    ∧ ((i < -(shared.length : Int) ∨ (shared.length : Int) ≤ i) →
        resolveValue shared ⟨ref, some "s", some v⟩ = .error .indexError)
    ∧ (∀ h : -(shared.length : Int) ≤ i ∧ i < 0,
        resolveValue shared ⟨ref, some "s", some v⟩ =
          .ok (shared.get ⟨(i + shared.length).toNat, by omega⟩)) := by
  have key : resolveValue shared ⟨ref, some "s", some v⟩ = pyIndex shared i := by
    simp [resolveValue, hv]
  refine ⟨?_, ?_, ?_⟩
  · intro h
    have hi : ¬ (i < 0) := by omega
    rw [key]
    simp only [pyIndex, hi, if_false]
    rw [dif_pos (show 0 ≤ i ∧ i < (shared.length : Int) from ⟨h.1, h.2⟩)]
  · intro h
    rw [key]
    rcases lt_or_ge i 0 with hi | hi
    · simp only [pyIndex, hi, if_true]
      rw [dif_neg (by omega)]
    · have hi2 : ¬ (i < 0) := by omega
      simp only [pyIndex, hi2, if_false]
      rw [dif_neg (by omega)]
  · intro h
    have hi : i < 0 := h.2
    rw [key]
    simp only [pyIndex, hi, if_true]
    rw [dif_pos (show 0 ≤ i + (shared.length : Int) ∧
          i + (shared.length : Int) < (shared.length : Int) from ⟨by omega, by omega⟩)]

/-- C5 witness: in-range index 1 of a two-entry table resolves to the
second entry; out-of-range index 5 raises `IndexError`. -/
theorem C5_witness :
    resolveValue [some "x", some "y"] ⟨"A1", some "s", some "1"⟩ = .ok (some "y") ∧
    resolveValue [some "x", some "y"] ⟨"A1", some "s", some "5"⟩ = .error .indexError := by
  constructor
  · have h := (C5_shared_resolution [some "x", some "y"] "A1" "1" 1 (by decide)).1
      ⟨by decide, by decide⟩
    simpa using h
  · exact (C5_shared_resolution [some "x", some "y"] "A1" "5" 5 (by decide)).2.1
      (by decide)

/-- C3: a package with no `xl/sharedStrings.xml` entry does not degrade
to an empty shared-string table: `Book.shared` raises `KeyError`, and
`Book.sheets` — which unconditionally forces `self.shared` at src line
90 — can never return a sheet list for such a package, whether or not
any cell references a shared string. -/
theorem C3_missing_sharedStrings (z : Zipfile) (h : zipHas z "xl/sharedStrings.xml" = false) :
    Book.shared z = .error (.keyError "xl/sharedStrings.xml") ∧
    ∀ sheets, Book.sheets z ≠ .ok sheets := by
  have h1 : Book.shared z = .error (.keyError "xl/sharedStrings.xml") := by
    simp [Book.shared, h]
  refine ⟨h1, ?_⟩
  intro sheets hok
  by_cases hw : zipHas z "xl/workbook.xml" <;>
    simp [Book.sheets, hw, h1, Bind.bind, Except.bind] at hok

/-- C3 witness: the concrete package with a manifest and one worksheet
but no shared-strings entry. -/
theorem C3_witness :
    zipHas zipC3 "xl/sharedStrings.xml" = false ∧
    Book.shared zipC3 = .error (.keyError "xl/sharedStrings.xml") := by
  exact ⟨by decide, (C3_missing_sharedStrings zipC3 (by decide)).1⟩

/-- C7: the concrete scenario — dimension `A1:B2`, shared strings
`["Name", "Age"]`, cells `A1`→shared 0, `B1`→shared 1, `A2`→inline
`"Alice"`, `B2`→inline `"30"` — materializes to the dense table
`[["Name", "Age"], ["Alice", "30"]]`, and its record projection is the
single record `{"Name": "Alice", "Age": "30"}`. -/
theorem C7_end_to_end :
    Sheet.parsedSheet "A1:B2" sharedC7 true nodesC7 =
      .ok [[some "Name", some "Age"], [some "Alice", some "30"]] ∧
    Sheet.to_dictSheet "A1:B2" sharedC7 true nodesC7 =
      .ok [[(some "Name", some "Alice"), (some "Age", some "30")]] := by
  decide

/-- C9: when the lazy row sequence is empty, the record projection
fails at the header pull with `StopIteration` (the spec's
`EmptyTable`): the error is the result — no record list is produced. -/
theorem C9_projection_empty (width : Nat) (cells : List Cell)
    (h : Sheet.parse width cells = []) :
    Sheet.to_dict width cells = .error .stopIteration := by
  simp [Sheet.to_dict, h]

/-- C9 witness: the empty cell list yields an empty row sequence, and
its projection is the `StopIteration` error. -/
theorem C9_witness :
    Sheet.parse 1 [] = [] ∧ Sheet.to_dict 1 [] = .error .stopIteration :=
  ⟨by decide, C9_projection_empty 1 [] (by decide)⟩

/-- C10: `Sheet.dict` is not a function of the sheet's contents alone:
on a 2×2 sheet whose second row has no cell in the last column, the run
in which `Sheet.parsed` was already materialized zips one record out of
the cached dense table, while the run without the cache consumes the
lazy generator — which drops the unflushed second row — and returns no
records at all. -/
theorem C10_dict_depends_on_cache :
    Sheet.dict 2 2 cellsC10 true ≠ Sheet.dict 2 2 cellsC10 false := by
  decide

/-- The lazy loop emits exactly one row per cell written at the last
column index: the output length is the count of such cells. -/
theorem parseGo_length (width : Nat) :
    ∀ (cells : List Cell) (buf : List (Option String)),
      (parseGo width buf cells).length =
        cells.countP (fun c => decide ((c.col : Int) = (width : Int) - 1))
  | [], _ => by simp [parseGo]
  | c :: cs, buf => by
    by_cases hc : (c.col : Int) = (width : Int) - 1 <;>
      simp [parseGo, hc, List.countP_cons, parseGo_length width cs]

/-- Cells none of which sit at the last column never flush: the lazy
loop emits nothing from them, whatever the current buffer. -/
theorem parseGo_no_flush (width : Nat) :
    ∀ (ds : List Cell), (∀ d ∈ ds, (d.col : Int) ≠ (width : Int) - 1) →
      ∀ buf, parseGo width buf ds = []
  | [], _, _ => rfl
  | d :: ds', h, buf => by
    have hd := h d (List.mem_cons_self d ds')
    simp only [parseGo, if_neg hd]
    exact parseGo_no_flush width ds' (fun x hx => h x (List.mem_cons_of_mem d hx)) _

/-- Appending cells that never reach the last column does not change
the emitted rows. -/
theorem parseGo_append_no_flush (width : Nat) (ds : List Cell)
    (h : ∀ d ∈ ds, (d.col : Int) ≠ (width : Int) - 1) :
    ∀ (cs : List Cell) (buf : List (Option String)),
      parseGo width buf (cs ++ ds) = parseGo width buf cs
  | [], buf => by
    simpa [parseGo] using parseGo_no_flush width ds h buf
  | c :: cs', buf => by
    by_cases hc : (c.col : Int) = (width : Int) - 1
    · simp only [List.cons_append, parseGo, if_pos hc]
      exact congrArg _ (parseGo_append_no_flush width ds h cs' _)
    · simp only [List.cons_append, parseGo, if_neg hc]
      exact parseGo_append_no_flush width ds h cs' _

/-- C6 counterexample: in the 2-wide sheet `[A1 → "a", B2 → "b"]`, row
0's only populated cell lies strictly before the last column, yet its
value `"a"` does flush: the `B2` write triggers the emission of the
shared buffer, so `"a"` appears in the lazy sequence (inside a row
merged with row 1's cell) rather than being absent. -/
theorem C6_counterexample :
    (∀ c ∈ cellsC6, c.row = 0 → c.col < 2 - 1) ∧
    Sheet.parse 2 cellsC6 = [[some "a", some "b"]] := by
  decide

/-- C6 amended: a row buffer is emitted exactly when a cell at column
`width - 1` is written (the number of emitted rows equals the number of
such cells), and cells written after the last such cell — in
particular the rows of a trailing sparse region with no last-column
cell — never flush: dropping them leaves the lazy sequence unchanged.
(An interior row without a last-column cell is not dropped wholesale:
its values leak into the next emitted row, as the counterexample
shows.) -/
theorem C6_trailing_rows_dropped (width : Nat) (cs ds : List Cell)
    (h : ∀ d ∈ ds, (d.col : Int) ≠ (width : Int) - 1) :
    (Sheet.parse width (cs ++ ds)).length =
      (cs ++ ds).countP (fun c => decide ((c.col : Int) = (width : Int) - 1)) ∧
    Sheet.parse width (cs ++ ds) = Sheet.parse width cs :=
  ⟨parseGo_length width (cs ++ ds) _, parseGo_append_no_flush width ds h cs _⟩

/-- C6 witness: a complete first row followed by a trailing cell
strictly before the last column; the trailing cell is dropped and one
row — matching the one last-column write — is emitted. -/
theorem C6_witness :
    (∀ d ∈ cellsC6w2, (d.col : Int) ≠ (2 : Int) - 1) ∧
    ((Sheet.parse 2 (cellsC6w ++ cellsC6w2)).length =
        (cellsC6w ++ cellsC6w2).countP (fun c => decide ((c.col : Int) = (2 : Int) - 1)) ∧
      Sheet.parse 2 (cellsC6w ++ cellsC6w2) = Sheet.parse 2 cellsC6w) :=
  ⟨by decide, C6_trailing_rows_dropped 2 cellsC6w cellsC6w2 (by decide)⟩

/-- A row group whose last cell — and only its last cell — sits at the
last column flushes exactly once, at its end, leaving a fresh buffer. -/
theorem parseGo_group (width : Nat) :
    ∀ (g : List Cell), g ≠ [] →
      (∀ c ∈ g.dropLast, (c.col : Int) ≠ (width : Int) - 1) →
      (∀ c, g.getLast? = some c → (c.col : Int) = (width : Int) - 1) →
      ∀ (rest : List Cell) (buf : List (Option String)),
        parseGo width buf (g ++ rest) =
          g.foldl rowUpd buf :: parseGo width (List.replicate width none) rest
  | [], hne, _, _ => absurd rfl hne
  | [c], _, _, hlast => by
    intro rest buf
    have hc := hlast c (by simp)
    simp [parseGo, hc]
  | c :: d :: g', _, hmid, hlast => by
    intro rest buf
    have hc : (c.col : Int) ≠ (width : Int) - 1 := by
      apply hmid
      rw [List.dropLast_cons₂]
      exact List.mem_cons_self _ _
    simp only [List.cons_append, parseGo, if_neg hc, List.foldl_cons]
    exact parseGo_group width (d :: g') (by simp)
      (fun x hx => hmid x (by rw [List.dropLast_cons₂]; exact List.mem_cons_of_mem _ hx))
      (fun x hx => hlast x (by rw [List.getLast?_cons_cons]; exact hx)) rest (rowUpd buf c)

/-- The lazy loop over a row-major sheet (the concatenation of its row
groups) yields exactly one filled row per group. -/
theorem parse_flatMap_groups (width : Nat) (g : Nat → List Cell) :
    ∀ rs : List Nat,
      (∀ r ∈ rs, g r ≠ [] ∧
        (∀ c ∈ (g r).dropLast, (c.col : Int) ≠ (width : Int) - 1) ∧
        (∀ c, (g r).getLast? = some c → (c.col : Int) = (width : Int) - 1)) →
      parseGo width (List.replicate width none) (rs.flatMap g) =
        rs.map (fun r => fillRow width (g r))
  | [], _ => by simp [parseGo]
  | r :: rs', h => by
    have hr := h r (List.mem_cons_self r rs')
    rw [List.flatMap_cons, List.map_cons,
      parseGo_group width (g r) hr.1 hr.2.1 hr.2.2 (rs'.flatMap g) _,
      parse_flatMap_groups width g rs' (fun x hx => h x (List.mem_cons_of_mem _ hx))]
    rfl

/-- A fold of grid writes preserves the grid's length. -/
theorem foldl_gridUpd_length :
    ∀ (cs : List Cell) (grid : List (List (Option String))),
      (cs.foldl gridUpd grid).length = grid.length
  | [], _ => rfl
  | c :: cs', grid => by
    rw [List.foldl_cons, foldl_gridUpd_length cs']
    simp [gridUpd]

/-- Grid writes of cells addressed to other rows leave row `r` as it
was. -/
theorem foldl_gridUpd_ne_row :
    ∀ (cs : List Cell) (r : Nat), (∀ c ∈ cs, c.row ≠ r) →
      ∀ grid : List (List (Option String)), (cs.foldl gridUpd grid)[r]? = grid[r]?
  | [], _, _, _ => rfl
  | c :: cs', r, h, grid => by
    rw [List.foldl_cons,
      foldl_gridUpd_ne_row cs' r (fun x hx => h x (List.mem_cons_of_mem _ hx))]
    exact List.getElem?_set_ne (h c (List.mem_cons_self c cs'))

/-- Grid writes of cells all addressed to row `r` act on row `r` as the
corresponding buffer writes. -/
theorem foldl_gridUpd_row :
    ∀ (cs : List Cell) (r : Nat), (∀ c ∈ cs, c.row = r) →
      ∀ grid : List (List (Option String)), r < grid.length →
        (cs.foldl gridUpd grid)[r]? = some (cs.foldl rowUpd (grid.getD r []))
  | [], r, _, grid, hr => by
    simp [List.getD_eq_getElem?_getD, List.getElem?_eq_getElem hr]
  | c :: cs', r, h, grid, hr => by
    have hcr : c.row = r := h c (List.mem_cons_self _ _)
    have hlen : r < (gridUpd grid c).length := by simpa [gridUpd] using hr
    rw [List.foldl_cons, List.foldl_cons,
      foldl_gridUpd_row cs' r (fun x hx => h x (List.mem_cons_of_mem _ hx)) (gridUpd grid c) hlen]
    congr 1
    unfold gridUpd
    rw [hcr]
    simp [List.getD_eq_getElem?_getD, List.getElem?_set_eq_of_lt _ hr]

/-- In the eager fold over a row-major sheet, each listed row of the
grid ends up as its group's filled row. -/
theorem parsed_flatMap_groups (width : Nat) (g : Nat → List Cell) :
    ∀ (rs : List Nat), rs.Nodup →
      (∀ r ∈ rs, ∀ c ∈ g r, c.row = r) →
      ∀ (grid : List (List (Option String))) (r : Nat), r ∈ rs →
        grid[r]? = some (List.replicate width none) →
        ((rs.flatMap g).foldl gridUpd grid)[r]? = some (fillRow width (g r))
  | [], _, _, _, r, hr, _ => absurd hr (List.not_mem_nil r)
  | r0 :: rs', hnd, h, grid, r, hr, hgrid => by
    rw [List.flatMap_cons, List.foldl_append]
    rcases List.mem_cons.mp hr with rfl | hr'
    · have hrow : ∀ c ∈ g r, c.row = r := h r (List.mem_cons_self _ _)
      have hrlt : r < grid.length := by
        by_contra hlt
        rw [List.getElem?_eq_none (Nat.le_of_not_lt hlt)] at hgrid
        exact Option.noConfusion hgrid
      have hne : ∀ c ∈ rs'.flatMap g, c.row ≠ r := by
        intro c hc
        rcases List.mem_flatMap.mp hc with ⟨r', hr', hcr'⟩
        rw [h r' (List.mem_cons_of_mem _ hr') c hcr']
        exact fun e => (List.nodup_cons.mp hnd).1 (e ▸ hr')
      rw [foldl_gridUpd_ne_row _ _ hne, foldl_gridUpd_row _ _ hrow _ hrlt]
      unfold fillRow
      congr 1
      simp [List.getD_eq_getElem?_getD, hgrid]
    · have hne : ∀ c ∈ g r0, c.row ≠ r := by
        intro c hc
        rw [h r0 (List.mem_cons_self _ _) c hc]
        exact fun e => (List.nodup_cons.mp hnd).1 (e ▸ hr')
      exact parsed_flatMap_groups width g rs' (List.nodup_cons.mp hnd).2
        (fun x hx => h x (List.mem_cons_of_mem _ hx)) _ r hr'
        (by rw [foldl_gridUpd_ne_row _ _ hne]; exact hgrid)

/-- C2 counterexample: a 2×1 sheet whose single row does have a
populated cell in the last column, but whose two cells appear in the
document in reversed order (`B1` before `A1`): the eager table places
both values, while the lazy loop flushes at `B1` before `A1`'s value is
written, so the two modes disagree at coordinate (0, 0). -/
theorem C2_counterexample :
    (∀ r, r < 1 → ∃ c ∈ cellsC2, c.row = r ∧ c.col = 2 - 1) ∧
    (∀ c ∈ cellsC2, c.row < 1 ∧ c.col < 2) ∧
    Sheet.parsed 2 1 cellsC2 ≠ Sheet.parse 2 cellsC2 := by
  decide

/-- C2 amended: for every sheet whose cell list is in row-major
document order — the concatenation over rows `0..height-1` of per-row
groups, every cell of group `r` addressed to row `r` and a column
`< width`, each group nonempty and ending with the row's single
last-column cell — the eager table and the lazy row sequence are
identical. -/
theorem C2_eager_lazy_equal (width height : Nat) (g : Nat → List Cell)
    (hrow : ∀ r, r < height → ∀ c ∈ g r, c.row = r ∧ c.col < width)
    (hgroup : ∀ r, r < height → g r ≠ [] ∧
      (∀ c ∈ (g r).dropLast, (c.col : Int) ≠ (width : Int) - 1) ∧
      (∀ c, (g r).getLast? = some c → (c.col : Int) = (width : Int) - 1)) :
    Sheet.parsed width height ((List.range height).flatMap g) =
      Sheet.parse width ((List.range height).flatMap g) := by
  have hparse : Sheet.parse width ((List.range height).flatMap g) =
      (List.range height).map (fun r => fillRow width (g r)) :=
    parse_flatMap_groups width g (List.range height)
      (fun r hr => hgroup r (List.mem_range.mp hr))
  apply List.ext_getElem?
  intro n
  by_cases hn : n < height
  · rw [hparse]
    have hR : ((List.range height).map (fun r => fillRow width (g r)))[n]? =
        some (fillRow width (g n)) := by
      rw [List.getElem?_map, List.getElem?_range hn]
      rfl
    rw [hR]
    exact parsed_flatMap_groups width g (List.range height) (List.nodup_range height)
      (fun r hr c hc => (hrow r (List.mem_range.mp hr) c hc).1)
      _ n (List.mem_range.mpr hn)
      (by rw [List.getElem?_replicate]; simp [hn])
  · have h1 : (Sheet.parsed width height ((List.range height).flatMap g))[n]? = none := by
      apply List.getElem?_eq_none
      unfold Sheet.parsed
      rw [foldl_gridUpd_length]
      simpa using Nat.le_of_not_lt hn
    have h2 : (Sheet.parse width ((List.range height).flatMap g))[n]? = none := by
      apply List.getElem?_eq_none
      rw [hparse, List.length_map, List.length_range]
      exact Nat.le_of_not_lt hn
    rw [h1, h2]

/-- C2 witness: the concrete row-major 2×2 sheet `gC2w`; both modes
yield `[["a", "b"], [None, "c"]]`. -/
theorem C2_witness :
    (∀ r, r < 2 → ∀ c ∈ gC2w r, c.row = r ∧ c.col < 2) ∧
    (∀ r, r < 2 → gC2w r ≠ [] ∧
      (∀ c ∈ (gC2w r).dropLast, (c.col : Int) ≠ (2 : Int) - 1) ∧
      (∀ c, (gC2w r).getLast? = some c → (c.col : Int) = (2 : Int) - 1)) ∧
    Sheet.parsed 2 2 ((List.range 2).flatMap gC2w) =
      Sheet.parse 2 ((List.range 2).flatMap gC2w) :=
  ⟨by decide, by decide, C2_eager_lazy_equal 2 2 gC2w (by decide) (by decide)⟩

/-- Every line-boundary character is a whitespace character. -/
theorem break_space {c : Char} (h : pyIsLineBreak c = true) : pyIsSpace c = true := by
  have hm : c ∈ pyLineBreaks := by simpa [pyIsLineBreak] using h
  have hw : c ∈ pyWhitespace := by
    unfold pyWhitespace
    exact List.mem_append_left _ hm
  simpa [pyIsSpace] using hw

theorem consHead_ne_nil (c : Char) (X : List (List Char)) : consHead c X ≠ [] := by
  cases X <;> simp [consHead]

/-- Unfolding: a non-boundary character is prepended to the first
segment. -/
theorem splitlines_cons_not_break (c : Char) (rest : List Char) (hc : pyIsLineBreak c = false) :
    pySplitlines (c :: rest) = consHead c (pySplitlines rest) := by
  have hcr : c ≠ '\r' := by
    rintro rfl
    simp [pyIsLineBreak, pyLineBreaks] at hc
  rw [pySplitlines.eq_def]
  split
  · rename_i heq
    exact absurd heq (by simp)
  · rename_i heq
    rw [List.cons.injEq] at heq
    exact absurd heq.1 hcr
  · rename_i x xs heq
    rw [List.cons.injEq] at heq
    obtain ⟨rfl, rfl⟩ := heq
    rw [if_neg (by rw [hc]; exact Bool.false_ne_true)]

/-- Unfolding: a boundary character other than CR closes the current
segment. -/
theorem splitlines_cons_break (c : Char) (rest : List Char) (hc : pyIsLineBreak c = true)
    (hcr : c ≠ '\r') : pySplitlines (c :: rest) = [] :: pySplitlines rest := by
  rw [pySplitlines.eq_def]
  split
  · rename_i heq
    exact absurd heq (by simp)
  · rename_i heq
    rw [List.cons.injEq] at heq
    exact absurd heq.1 hcr
  · rename_i x xs heq
    rw [List.cons.injEq] at heq
    obtain ⟨rfl, rfl⟩ := heq
    rw [if_pos hc]

/-- Unfolding: a CR not followed by LF closes the current segment. -/
theorem splitlines_cr (rest : List Char) (h : rest.head? ≠ some '\n') :
    pySplitlines ('\r' :: rest) = [] :: pySplitlines rest := by
  rw [pySplitlines.eq_def]
  split
  · rename_i heq
    exact absurd heq (by simp)
  · rename_i r heq
    rw [List.cons.injEq] at heq
    obtain ⟨-, rfl⟩ := heq
    exact absurd rfl h
  · rename_i x xs heq
    rw [List.cons.injEq] at heq
    obtain ⟨rfl, rfl⟩ := heq
    rw [if_pos (by decide)]

theorem consHead_no_break (c : Char) (hc : pyIsLineBreak c = false)
    (X : List (List Char)) (hX : ∀ l ∈ X, ∀ x ∈ l, pyIsLineBreak x = false) :
    ∀ l ∈ consHead c X, ∀ x ∈ l, pyIsLineBreak x = false := by
  cases X with
  | nil =>
    intro l hl x hx
    simp only [consHead, List.mem_singleton] at hl
    subst hl
    simp only [List.mem_singleton] at hx
    subst hx
    exact hc
  | cons y ys =>
    intro l hl x hx
    simp only [consHead] at hl
    rcases List.mem_cons.mp hl with rfl | hl'
    · rcases List.mem_cons.mp hx with rfl | hx'
      · exact hc
      · exact hX y (List.mem_cons_self _ _) x hx'
    · exact hX l (List.mem_cons_of_mem _ hl') x hx

/-- No segment produced by `splitlines` contains a line boundary. -/
theorem splitlines_no_break :
    ∀ (s : List Char), ∀ l ∈ pySplitlines s, ∀ x ∈ l, pyIsLineBreak x = false
  | [] => by simp [pySplitlines]
  | [c] => by
    by_cases hc : pyIsLineBreak c = true
    · by_cases hcr : c = '\r'
      · subst hcr
        rw [splitlines_cr [] (by simp)]
        simp [pySplitlines]
      · rw [splitlines_cons_break c [] hc hcr]
        simp [pySplitlines]
    · rw [splitlines_cons_not_break c [] (by simpa using hc)]
      intro l hl x hx
      simp only [pySplitlines, consHead, List.mem_singleton] at hl
      subst hl
      simp only [List.mem_singleton] at hx
      subst hx
      simpa using hc
  | c :: d :: rest => by
    by_cases hcd : c = '\r' ∧ d = '\n'
    · obtain ⟨rfl, rfl⟩ := hcd
      intro l hl
      rw [show pySplitlines ('\r' :: '\n' :: rest) = [] :: pySplitlines rest from rfl] at hl
      rcases List.mem_cons.mp hl with rfl | hl'
      · simp
      · exact splitlines_no_break rest l hl'
    · by_cases hc : pyIsLineBreak c = true
      · have hsplit : pySplitlines (c :: d :: rest) = [] :: pySplitlines (d :: rest) := by
          by_cases hcr : c = '\r'
          · subst hcr
            apply splitlines_cr
            intro hhd
            exact hcd ⟨rfl, by simpa using hhd⟩
          · exact splitlines_cons_break c (d :: rest) hc hcr
        rw [hsplit]
        intro l hl
        rcases List.mem_cons.mp hl with rfl | hl'
        · simp
        · exact splitlines_no_break (d :: rest) l hl'
      · rw [splitlines_cons_not_break c (d :: rest) (by simpa using hc)]
        exact consHead_no_break c (by simpa using hc) _ (splitlines_no_break (d :: rest))

/-- `splitlines` of a nonempty string is nonempty. -/
theorem splitlines_ne_nil :
    ∀ (s : List Char), s ≠ [] → pySplitlines s ≠ []
  | [], h => absurd rfl h
  | c :: rest, _ => by
    by_cases hc : pyIsLineBreak c = true
    · by_cases hcr : c = '\r'
      · subst hcr
        cases rest with
        | nil => rw [splitlines_cr [] (by simp)]; simp
        | cons d rest' =>
          by_cases hd : d = '\n'
          · subst hd
            rw [show pySplitlines ('\r' :: '\n' :: rest') = [] :: pySplitlines rest' from rfl]
            simp
          · rw [splitlines_cr (d :: rest') (by simpa using hd)]
            simp
      · rw [splitlines_cons_break c rest hc hcr]
        simp
    · rw [splitlines_cons_not_break c rest (by simpa using hc)]
      exact consHead_ne_nil c _

/-- A boundary-free string splits into itself as the only segment. -/
theorem splitlines_of_no_break :
    ∀ (s : List Char), (∀ c ∈ s, pyIsLineBreak c = false) →
      pySplitlines s = if s.isEmpty then [] else [s]
  | [], _ => by simp [pySplitlines]
  | c :: rest, h => by
    rw [splitlines_cons_not_break c rest (h c (List.mem_cons_self _ _)),
      splitlines_of_no_break rest (fun x hx => h x (List.mem_cons_of_mem _ hx))]
    cases rest <;> simp [consHead]

/-- The last segment of `splitlines` ends with the string's last
character, when that character is not a boundary. -/
theorem splitlines_getLast :
    ∀ (s : List Char) (c : Char), s.getLast? = some c → pyIsLineBreak c = false →
      ∃ seg, (pySplitlines s).getLast? = some seg ∧ seg.getLast? = some c
  | [], c, h, _ => by simp at h
  | [a], c, h, hc => by
    have : a = c := by simpa using h
    subst this
    rw [splitlines_cons_not_break a [] hc]
    exact ⟨[a], by simp [pySplitlines, consHead], by simp⟩
  | a :: b :: rest, c, h, hc => by
    have htail : (b :: rest).getLast? = some c := by
      rw [← List.getLast?_cons_cons (a := a)]
      exact h
    obtain ⟨seg, hseg, hsegc⟩ := splitlines_getLast (b :: rest) c htail hc
    have hne : pySplitlines (b :: rest) ≠ [] := splitlines_ne_nil _ (by simp)
    by_cases hab : a = '\r' ∧ b = '\n'
    · obtain ⟨rfl, rfl⟩ := hab
      rw [show pySplitlines ('\r' :: '\n' :: rest) = [] :: pySplitlines rest from rfl]
      rw [splitlines_cons_break '\n' rest (by decide) (by decide)] at hseg
      cases hX : pySplitlines rest with
      | nil =>
        rw [hX] at hseg
        have : seg = [] := by simpa using hseg.symm
        subst this
        simp at hsegc
      | cons y ys =>
        rw [hX] at hseg
        rw [List.getLast?_cons_cons] at hseg
        exact ⟨seg, by rw [List.getLast?_cons_cons]; exact hseg, hsegc⟩
    · by_cases ha : pyIsLineBreak a = true
      · have hsplit : pySplitlines (a :: b :: rest) = [] :: pySplitlines (b :: rest) := by
          by_cases har : a = '\r'
          · subst har
            apply splitlines_cr
            intro hhd
            exact hab ⟨rfl, by simpa using hhd⟩
          · exact splitlines_cons_break a (b :: rest) ha har
        rw [hsplit]
        cases hX : pySplitlines (b :: rest) with
        | nil => exact absurd hX hne
        | cons y ys =>
          rw [hX] at hseg
          exact ⟨seg, by rw [List.getLast?_cons_cons]; exact hseg, hsegc⟩
      · rw [splitlines_cons_not_break a (b :: rest) (by simpa using ha)]
        cases hX : pySplitlines (b :: rest) with
        | nil => exact absurd hX hne
        | cons y ys =>
          rw [hX] at hseg
          cases ys with
          | nil =>
            have hy : y = seg := by simpa using hseg
            subst hy
            refine ⟨a :: y, by simp [consHead], ?_⟩
            cases y with
            | nil => simp at hsegc
            | cons z zs => rw [List.getLast?_cons_cons]; exact hsegc
          | cons y2 ys' =>
            refine ⟨seg, ?_, hsegc⟩
            simp only [consHead]
            rw [List.getLast?_cons_cons]
            rw [List.getLast?_cons_cons] at hseg
            exact hseg

/-- The head of a `dropWhile` result does not satisfy the predicate. -/
theorem dropWhile_head_false (p : Char → Bool) :
    ∀ (l : List Char) (c : Char), (l.dropWhile p).head? = some c → p c = false
  | [], c => by simp [List.dropWhile]
  | a :: l, c => by
    by_cases ha : p a = true
    · rw [List.dropWhile_cons, if_pos ha]
      exact dropWhile_head_false p l c
    · rw [List.dropWhile_cons, if_neg ha]
      intro h
      have : a = c := by simpa using h
      subst this
      simpa using ha

theorem dropWhile_eq_self (p : Char → Bool) :
    ∀ (l : List Char), (∀ c, l.head? = some c → p c = false) → l.dropWhile p = l
  | [], _ => rfl
  | a :: l, h => by
    have ha : p a = false := h a rfl
    rw [List.dropWhile_cons, if_neg (by simp [ha])]

/-- A nonempty `dropWhile` result keeps the original last element. -/
theorem dropWhile_getLast (p : Char → Bool) :
    ∀ (l : List Char), l.dropWhile p ≠ [] → (l.dropWhile p).getLast? = l.getLast?
  | [], h => absurd rfl h
  | a :: l, h => by
    by_cases ha : p a = true
    · rw [List.dropWhile_cons, if_pos ha] at h ⊢
      rw [dropWhile_getLast p l h]
      have hl : l ≠ [] := by
        intro e
        subst e
        simp [List.dropWhile] at h
      cases l with
      | nil => exact absurd rfl hl
      | cons b l' => rw [List.getLast?_cons_cons]
    · rw [List.dropWhile_cons, if_neg ha]

/-- The first character of a stripped string is not whitespace. -/
theorem pyStrip_head (s : List Char) (c : Char) (h : (pyStrip s).head? = some c) :
    pyIsSpace c = false := by
  unfold pyStrip at h
  rw [List.head?_reverse] at h
  have hne : (List.dropWhile pyIsSpace (List.dropWhile pyIsSpace s).reverse) ≠ [] := by
    intro e
    rw [e] at h
    simp at h
  rw [dropWhile_getLast _ _ hne, List.getLast?_reverse] at h
  exact dropWhile_head_false _ _ _ h

/-- The last character of a stripped string is not whitespace. -/
theorem pyStrip_last (s : List Char) (c : Char) (h : (pyStrip s).getLast? = some c) :
    pyIsSpace c = false := by
  unfold pyStrip at h
  rw [List.getLast?_reverse] at h
  exact dropWhile_head_false _ _ _ h

/-- Stripping fixes a string with no surrounding whitespace. -/
theorem pyStrip_eq_self (t : List Char)
    (h1 : ∀ c, t.head? = some c → pyIsSpace c = false)
    (h2 : ∀ c, t.getLast? = some c → pyIsSpace c = false) : pyStrip t = t := by
  unfold pyStrip
  rw [dropWhile_eq_self _ t h1]
  rw [dropWhile_eq_self _ t.reverse (fun c hc => h2 c (by rwa [List.head?_reverse] at hc))]
  exact List.reverse_reverse t

/-- A space-join of boundary-free segments is boundary-free. -/
theorem pyJoin_no_break :
    ∀ (ls : List (List Char)), (∀ l ∈ ls, ∀ x ∈ l, pyIsLineBreak x = false) →
      ∀ x ∈ pyJoin [' '] ls, pyIsLineBreak x = false
  | [], _ => by simp [pyJoin]
  | [l], h => by
    intro x hx
    rw [show pyJoin [' '] [l] = l from rfl] at hx
    exact h l (List.mem_cons_self _ _) x hx
  | l :: l2 :: ls, h => by
    intro x hx
    rw [show pyJoin [' '] (l :: l2 :: ls) = l ++ [' '] ++ pyJoin [' '] (l2 :: ls) from rfl] at hx
    rcases List.mem_append.mp hx with hx1 | hx2
    · rcases List.mem_append.mp hx1 with hxl | hxsp
      · exact h l (List.mem_cons_self _ _) x hxl
      · have : x = ' ' := by simpa using hxsp
        subst this
        decide
    · exact pyJoin_no_break (l2 :: ls) (fun y hy => h y (List.mem_cons_of_mem _ hy)) x hx2

/-- The head of a join starts the first (nonempty) segment. -/
theorem pyJoin_head (sep : List Char) :
    ∀ (l : List Char) (ls : List (List Char)), l ≠ [] →
      (pyJoin sep (l :: ls)).head? = l.head?
  | _, [], _ => rfl
  | [], _ :: _, h => absurd rfl h
  | a :: l0, l2 :: ls, _ => by
    rw [show pyJoin sep ((a :: l0) :: l2 :: ls) = (a :: l0) ++ sep ++ pyJoin sep (l2 :: ls)
      from rfl]
    simp

/-- A join of nonempty segments is nonempty. -/
theorem pyJoin_ne_nil (sep : List Char) :
    ∀ (ls : List (List Char)), (∀ l ∈ ls, l ≠ []) → ls ≠ [] → pyJoin sep ls ≠ []
  | [], _, h => absurd rfl h
  | [l], h, _ => by
    rw [show pyJoin sep [l] = l from rfl]
    exact h l (List.mem_cons_self _ _)
  | l :: l2 :: ls, h, _ => by
    rw [show pyJoin sep (l :: l2 :: ls) = l ++ sep ++ pyJoin sep (l2 :: ls) from rfl]
    have hl := h l (List.mem_cons_self _ _)
    cases l with
    | nil => exact absurd rfl hl
    | cons a l0 => simp

/-- The last character of a join of nonempty segments ends the last
segment. -/
theorem pyJoin_getLast (sep : List Char) :
    ∀ (ls : List (List Char)) (l : List Char), (∀ x ∈ ls, x ≠ []) →
      ls.getLast? = some l → (pyJoin sep ls).getLast? = l.getLast?
  | [], l, _, hl => by simp at hl
  | [x], l, _, hl => by
    have : x = l := by simpa using hl
    subst this
    rfl
  | l1 :: l2 :: ls, l, h, hl => by
    rw [show pyJoin sep (l1 :: l2 :: ls) = l1 ++ sep ++ pyJoin sep (l2 :: ls) from rfl]
    have hne : pyJoin sep (l2 :: ls) ≠ [] :=
      pyJoin_ne_nil sep (l2 :: ls) (fun x hx => h x (List.mem_cons_of_mem _ hx)) (by simp)
    rw [List.getLast?_append_of_ne_nil _ hne]
    exact pyJoin_getLast sep (l2 :: ls) l (fun x hx => h x (List.mem_cons_of_mem _ hx))
      (by rw [← List.getLast?_cons_cons (a := l1)]; exact hl)

/-- Filtering preserves a last element that passes the filter. -/
theorem getLast?_filter :
    ∀ (ls : List (List Char)) (l : List Char), ls.getLast? = some l → l ≠ [] →
      (ls.filter (fun x => !x.isEmpty)).getLast? = some l
  | [], l, hl, _ => by simp at hl
  | [x], l, hl, hne => by
    have : x = l := by simpa using hl
    subst this
    rw [List.filter_cons_of_pos (p := fun (z : List Char) => !z.isEmpty) (by simpa using hne)]
    simp
  | x :: y :: ls, l, hl, hne => by
    have htail : (y :: ls).getLast? = some l := by
      rw [← List.getLast?_cons_cons (a := x)]
      exact hl
    have hrec := getLast?_filter (y :: ls) l htail hne
    have hFne : (y :: ls).filter (fun x => !x.isEmpty) ≠ [] := by
      intro e
      rw [e] at hrec
      simp at hrec
    by_cases hx : (!x.isEmpty) = true
    · rw [List.filter_cons_of_pos (p := fun (z : List Char) => !z.isEmpty) hx]
      cases hF : (y :: ls).filter (fun x => !x.isEmpty) with
      | nil => exact absurd hF hFne
      | cons z zs =>
        rw [hF] at hrec
        rw [List.getLast?_cons_cons]
        exact hrec
    · rw [List.filter_cons_of_neg (p := fun (z : List Char) => !z.isEmpty) (by simpa using hx)]
      exact hrec

/-- Every nonempty list with a head has some last element. -/
theorem exists_getLast_cons (a : Char) :
    ∀ (l : List Char), ∃ y, (a :: l).getLast? = some y
  | [] => ⟨a, rfl⟩
  | b :: l => by
    obtain ⟨y, hy⟩ := exists_getLast_cons b l
    exact ⟨y, by rw [List.getLast?_cons_cons]; exact hy⟩

/-- The sanitization core is idempotent on character lists. -/
theorem pySanitizeCore_idem (u : List Char) :
    pySanitizeCore (pySanitizeCore u) = pySanitizeCore u := by
  have hmem : ∀ l ∈ (pySplitlines (pyStrip u)).filter (fun l => !l.isEmpty),
      l ≠ [] ∧ ∀ x ∈ l, pyIsLineBreak x = false := by
    intro l hl
    have h2 := List.mem_filter.mp hl
    exact ⟨by simpa using h2.2, splitlines_no_break _ l h2.1⟩
  cases hsegs : (pySplitlines (pyStrip u)).filter (fun l => !l.isEmpty) with
  | nil =>
    unfold pySanitizeCore
    rw [hsegs]
    rfl
  | cons seg0 segs' =>
    rw [hsegs] at hmem
    -- the string is nonempty once stripped
    have htne : pyStrip u ≠ [] := by
      intro e
      rw [e] at hsegs
      simp [pySplitlines] at hsegs
    obtain ⟨c0, t', ht⟩ : ∃ c0 t', pyStrip u = c0 :: t' := by
      cases hcase : pyStrip u with
      | nil => exact absurd hcase htne
      | cons a b => exact ⟨a, b, rfl⟩
    have hc0sp : pyIsSpace c0 = false := pyStrip_head u c0 (by rw [ht]; rfl)
    have hc0br : pyIsLineBreak c0 = false := by
      cases hbr : pyIsLineBreak c0
      · rfl
      · exact absurd (break_space hbr) (by rw [hc0sp]; exact Bool.false_ne_true)
    -- the last character of the strip
    obtain ⟨cl, hcl⟩ : ∃ cl, (pyStrip u).getLast? = some cl := by
      rw [ht]
      exact exists_getLast_cons c0 t'
    have hclsp : pyIsSpace cl = false := pyStrip_last u cl hcl
    have hclbr : pyIsLineBreak cl = false := by
      cases hbr : pyIsLineBreak cl
      · rfl
      · exact absurd (break_space hbr) (by rw [hclsp]; exact Bool.false_ne_true)
    obtain ⟨seg, hsegL, hsegLc⟩ := splitlines_getLast (pyStrip u) cl hcl hclbr
    have hsegne : seg ≠ [] := by
      intro e
      rw [e] at hsegLc
      simp at hsegLc
    have hFlast : ((pySplitlines (pyStrip u)).filter (fun l => !l.isEmpty)).getLast? =
        some seg := getLast?_filter _ seg hsegL hsegne
    rw [hsegs] at hFlast
    -- the first segment starts with the strip's first character
    obtain ⟨l0, X, hsplit⟩ : ∃ l0 X, pySplitlines (pyStrip u) = (c0 :: l0) :: X := by
      rw [ht, splitlines_cons_not_break c0 t' hc0br]
      cases hcase : pySplitlines t' with
      | nil => exact ⟨[], [], rfl⟩
      | cons y ys => exact ⟨y, ys, rfl⟩
    have hsegs2 := hsegs
    rw [hsplit, List.filter_cons_of_pos (p := fun (z : List Char) => !z.isEmpty) (by simp)] at hsegs2
    have hseg0 : seg0 = c0 :: l0 := by
      have hh := congrArg List.head? hsegs2
      simpa using hh.symm
    -- facts about the joined result
    have hA1 : ∀ l ∈ seg0 :: segs', l ≠ [] := fun l hl => (hmem l hl).1
    have hrne : pyJoin [' '] (seg0 :: segs') ≠ [] :=
      pyJoin_ne_nil [' '] (seg0 :: segs') hA1 (by simp)
    have hrhead : (pyJoin [' '] (seg0 :: segs')).head? = some c0 := by
      rw [pyJoin_head [' '] seg0 segs' (hA1 seg0 (List.mem_cons_self _ _)), hseg0]
      rfl
    have hrlast : (pyJoin [' '] (seg0 :: segs')).getLast? = some cl := by
      rw [pyJoin_getLast [' '] (seg0 :: segs') seg hA1 hFlast]
      exact hsegLc
    have hrbr : ∀ x ∈ pyJoin [' '] (seg0 :: segs'), pyIsLineBreak x = false :=
      pyJoin_no_break (seg0 :: segs') (fun l hl => (hmem l hl).2)
    have hjoinemp : (pyJoin [' '] (seg0 :: segs')).isEmpty = false := by
      cases hJ : pyJoin [' '] (seg0 :: segs') with
      | nil => exact absurd hJ hrne
      | cons a l => rfl
    -- now sanitize the sanitized value
    unfold pySanitizeCore
    rw [hsegs]
    rw [pyStrip_eq_self (pyJoin [' '] (seg0 :: segs'))
      (fun c hc => by
        rw [hrhead] at hc
        have : c0 = c := by simpa using hc
        rw [← this]
        exact hc0sp)
      (fun c hc => by
        rw [hrlast] at hc
        have : cl = c := by simpa using hc
        rw [← this]
        exact hclsp)]
    rw [splitlines_of_no_break _ hrbr]
    rw [if_neg (by rw [hjoinemp]; exact Bool.false_ne_true)]
    rw [List.filter_cons_of_pos (p := fun (z : List Char) => !z.isEmpty) (by simp [hjoinemp])]
    rfl

/-- C8: sanitization — strip surrounding whitespace, split on line
terminators, discard empty segments, rejoin with single spaces — is
idempotent: a second application returns its input unchanged. -/
theorem C8_sanitize_idempotent (s : String) :
    pySanitize (pySanitize s) = pySanitize s :=
  congrArg String.mk (pySanitizeCore_idem s.data)

/-- C8 witness: a concrete value with surrounding whitespace and a line
break sanitizes to a fixed point of the sanitizer. -/
theorem C8_witness :
    pySanitize (String.mk [' ', 'a', ' ', '\n', ' ', 'b', ' ']) =
      String.mk ['a', ' ', ' ', ' ', 'b'] ∧
    pySanitize (pySanitize (String.mk [' ', 'a', ' ', '\n', ' ', 'b', ' '])) =
      pySanitize (String.mk [' ', 'a', ' ', '\n', ' ', 'b', ' ']) :=
  ⟨by decide, C8_sanitize_idempotent (String.mk [' ', 'a', ' ', '\n', ' ', 'b', ' '])⟩

end SheetHappens
